import Mathlib

/-!
# Verification of the kubelet-cadvisor-addlabel enrichment core

A shallow embedding of the Go sources of `puzhihao/kubelet-cadvisor-addlabel`:
the label-processing text-rewrite engine (`label_processor.go`), the metadata
cache (`internal/metrics/cache_manager.go`), the relation-metric builder
(`internal/metrics/relation_metrics.go` together with the MD5-based
`labelRelationHash`), and the scrape-cycle orchestration of
`internal/metrics/collector.go`.

Go strings are modelled as `List Char` (`Str`).  Go's byte-oriented string
primitives (`strings.Contains`, `strings.TrimSpace`, `strings.Split`,
`strings.LastIndex`, ...) are modelled on the character list; for the ASCII
data these functions are applied to, character operations and byte operations
coincide (UTF-8 encoding preserves lexicographic order and ASCII characters
are single bytes).  Machine integers are modelled as `Nat` with explicit
reduction modulo `2 ^ 32` / `2 ^ 64` where the Go code relies on wraparound.
-/

namespace KCAL

/-- Go strings, modelled as lists of characters. -/
abbrev Str := List Char

/-- The character list of a Lean string literal (used to write `Str` constants). -/
def lit (s : String) : Str := s.data

/-- Whitespace as recognised by Go's `unicode.IsSpace` restricted to ASCII
(space, tab, newline, vertical tab, form feed, carriage return); the payloads
handled by the program are ASCII metric lines. -/
def goIsSpace (c : Char) : Bool :=
  c = ' ' || c = '\t' || c = '\n' || c = '\x0b' || c = '\x0c' || c = '\r'

/-- Go `strings.TrimSpace`: drop leading and trailing whitespace. -/
def trimSpace (s : Str) : Str :=
  ((s.dropWhile goIsSpace).reverse.dropWhile goIsSpace).reverse

/-- Go map lookup `m[k]` on a `map[string]string` modelled as an association
list: returns the zero value `""` when the key is absent. -/
def afind (m : List (Str × Str)) (k : Str) : Str :=
  match m with
  | [] => []
  | (k', v) :: rest => if k' = k then v else afind rest k

/-- Go `strings.Split(s, sep)` for a one-character separator. -/
def splitOnChar (sep : Char) (s : Str) : List Str :=
  match s with
  | [] => [[]]
  | c :: rest =>
    let r := splitOnChar sep rest
    if c = sep then [] :: r
    else match r with
         | [] => [[c]]
         | h :: t => (c :: h) :: t

/-- `strings.LastIndex(s, "}")`-based decomposition used by
`processMetricLine`: `some (head, tail)` with `s = head ++ c :: tail` and `c`
not in `tail` when `c` occurs in `s`, `none` otherwise. -/
def breakLast (c : Char) (s : Str) : Option (Str × Str) :=
  match s with
  | [] => none
  | a :: rest =>
    match breakLast c rest with
    | some (h, t) => some (a :: h, t)
    | none => if a = c then some ([], rest) else none

/-- Leftmost-match semantics of the Go regexps `namespace="([^"]+)"` and
`pod="([^"]+)"` from `label_processor.go`: scan positions left to right, and
at the first position where the literal prefix `pat` is followed by one or
more non-quote characters and a closing quote, return the captured run.
Returns `[]` (the way `FindStringSubmatch` leaves the variable unset) when no
position matches. -/
def findCapture (pat : Str) (s : Str) : Str :=
  match s with
  | [] => []
  | _ :: rest =>
    if pat <+: s then
      let run := (s.drop pat.length).takeWhile (· ≠ '"')
      if run ≠ [] && (s.drop (pat.length + run.length)).head? = some '"' then run
      else findCapture pat rest
    else findCapture pat rest

/-- `extractNamespaceAndPod` from `label_processor.go`. -/
def extractNamespaceAndPod (line : Str) : Str × Str :=
  (findCapture (lit "namespace=\"") line, findCapture (lit "pod=\"") line)

/-- `escapeLabelValue` from `label_processor.go`: three sequential
`strings.ReplaceAll` passes escaping backslash, double quote, newline. -/
def escapeLabelValue (value : Str) : Str :=
  ((value.flatMap fun c => if c = '\\' then ['\\', '\\'] else [c]).flatMap
    fun c => if c = '"' then ['\\', '"'] else [c]).flatMap
    fun c => if c = '\n' then ['\\', 'n'] else [c]

/-- `splitLabels` from `label_processor.go`. -/
def splitLabels (labels : Str) : List Str :=
  if labels = [] then []
  else (splitOnChar ',' labels).filterMap fun l =>
    let t := trimSpace l
    if t = [] then none else some t

/-- The reserved key under which `parseLabelDefaults` stores the global
fallback value. -/
def globalKey : Str := lit "__global__"

/-- Insert-or-overwrite on the association-list model of a Go map. -/
def aset (m : List (Str × Str)) (k v : Str) : List (Str × Str) :=
  (m.filter fun e => e.1 ≠ k) ++ [(k, v)]

/-- `parseLabelDefaults` from `label_processor.go`. -/
def parseLabelDefaults (defaults : Str) : List (Str × Str) :=
  if defaults = [] ∨ defaults = lit "null" then []
  else
    (splitOnChar ',' defaults).foldl
      (fun m pair =>
        let pair := trimSpace pair
        if pair = [] then m
        else if ¬ ('=' ∈ pair) then aset m globalKey pair
        else
          let key := trimSpace (pair.takeWhile (· ≠ '='))
          let value := trimSpace ((pair.dropWhile (· ≠ '=')).tail)
          if key = [] then m else aset m key value)
      []

/-- `labelValue` from `label_processor.go`: per-line label value, else
per-key default, else global default (each whitespace-trimmed, empty means
"move on"). -/
def labelValue (label : Str) (podLabels : Option (List (Str × Str)))
    (defaults : List (Str × Str)) : Str :=
  let fromPod :=
    match podLabels with
    | some m => trimSpace (afind m label)
    | none => []
  if fromPod ≠ [] then fromPod
  else
    let fromKey := trimSpace (afind defaults label)
    if fromKey ≠ [] then fromKey
    else trimSpace (afind defaults globalKey)

/-- The per-label rewriting step in the loop body of `processMetricLine`. -/
def injectStep (podLabels : Option (List (Str × Str)))
    (defaults : List (Str × Str)) (mutated label : Str) : Str :=
  if (label ++ ['=']) <:+: mutated then mutated
  else
    let value := labelValue label podLabels defaults
    if value = [] then mutated
    else
      match breakLast '}' mutated with
      | none => mutated
      | some (head, tail) =>
          head ++ [','] ++ label ++ ['=', '"'] ++ escapeLabelValue value
            ++ ['"', '}'] ++ trimSpace tail

/-- A target label can no longer be injected into `s`: the duplicate test
fires, or its resolved value is empty, or `s` has no closing brace.  This is
the exhaustive list of reasons `injectStep` leaves its input unchanged. -/
def blockedLabel (podLabels : Option (List (Str × Str)))
    (defaults : List (Str × Str)) (label s : Str) : Prop :=
  (label ++ ['=']) <:+: s ∨ labelValue label podLabels defaults = [] ∨ '}' ∉ s

/-- `processMetricLine` from `label_processor.go`. -/
def processMetricLine (resolvePodLabels : Str → Str → Option (List (Str × Str)))
    (targetLabels : List Str) (defaultValues : List (Str × Str)) (line : Str) : Str :=
  let e := extractNamespaceAndPod line
  if e.1 = [] ∨ e.2 = [] then line
  else
    let podLabels := resolvePodLabels e.1 e.2
    targetLabels.foldl (injectStep podLabels defaultValues) line

/-- `AddLabelsToMetrics` from `label_processor.go`. -/
def addLabelsToMetrics (metrics addLabels labelDefaults : Str)
    (resolvePodLabels : Str → Str → Option (List (Str × Str))) : Str :=
  let targetLabels := splitLabels addLabels
  if targetLabels = [] then metrics
  else
    let defaultValues := parseLabelDefaults labelDefaults
    (splitOnChar '\n' metrics).flatMap fun line =>
      let trimmed := trimSpace line
      let out :=
        if trimmed = [] ∨ trimmed.head? = some '#' then line
        else if '{' ∈ line ∧ '}' ∈ line then
          processMetricLine resolvePodLabels targetLabels defaultValues line
        else line
      out ++ ['\n']

/-! ## MD5 and the relation hash (`relation_hash.go`)

`labelRelationHash` calls Go's `crypto/md5`; the digest algorithm (RFC 1321)
is reproduced here over `Nat` bytes so the embedding stays executable.
32-bit words are `Nat` values kept below `2 ^ 32` by explicit reduction. -/

/-- `2 ^ 32`, the word modulus of MD5. -/
def M32 : Nat := 4294967296

/-- UTF-8 encoding of one character (what `[]byte(value)` produces in Go). -/
def utf8Char (c : Char) : List Nat :=
  let n := c.toNat
  if n < 128 then [n]
  else if n < 2048 then [192 + n / 64, 128 + n % 64]
  else if n < 65536 then [224 + n / 4096, 128 + n / 64 % 64, 128 + n % 64]
  else [240 + n / 262144, 128 + n / 4096 % 64, 128 + n / 64 % 64, 128 + n % 64]

/-- UTF-8 bytes of a string, as Go's `[]byte(value)` conversion yields. -/
def utf8Bytes (s : Str) : List Nat := s.flatMap utf8Char

/-- The 64 MD5 round constants `⌊2^32·|sin(i+1)|⌋` of RFC 1321. -/
def md5K : List Nat :=
  [0xd76aa478, 0xe8c7b756, 0x242070db, 0xc1bdceee,
   0xf57c0faf, 0x4787c62a, 0xa8304613, 0xfd469501,
   0x698098d8, 0x8b44f7af, 0xffff5bb1, 0x895cd7be,
   0x6b901122, 0xfd987193, 0xa679438e, 0x49b40821,
   0xf61e2562, 0xc040b340, 0x265e5a51, 0xe9b6c7aa,
   0xd62f105d, 0x02441453, 0xd8a1e681, 0xe7d3fbc8,
   0x21e1cde6, 0xc33707d6, 0xf4d50d87, 0x455a14ed,
   0xa9e3e905, 0xfcefa3f8, 0x676f02d9, 0x8d2a4c8a,
   0xfffa3942, 0x8771f681, 0x6d9d6122, 0xfde5380c,
   0xa4beea44, 0x4bdecfa9, 0xf6bb4b60, 0xbebfbc70,
   0x289b7ec6, 0xeaa127fa, 0xd4ef3085, 0x04881d05,
   0xd9d4d039, 0xe6db99e5, 0x1fa27cf8, 0xc4ac5665,
   0xf4292244, 0x432aff97, 0xab9423a7, 0xfc93a039,
   0x655b59c3, 0x8f0ccc92, 0xffeff47d, 0x85845dd1,
   0x6fa87e4f, 0xfe2ce6e0, 0xa3014314, 0x4e0811a1,
   0xf7537e82, 0xbd3af235, 0x2ad7d2bb, 0xeb86d391]

/-- The 64 MD5 per-round left-rotation amounts of RFC 1321. -/
def md5S : List Nat :=
  [7, 12, 17, 22, 7, 12, 17, 22, 7, 12, 17, 22, 7, 12, 17, 22,
   5, 9, 14, 20, 5, 9, 14, 20, 5, 9, 14, 20, 5, 9, 14, 20,
   4, 11, 16, 23, 4, 11, 16, 23, 4, 11, 16, 23, 4, 11, 16, 23,
   6, 10, 15, 21, 6, 10, 15, 21, 6, 10, 15, 21, 6, 10, 15, 21]

/-- Left rotation of a 32-bit word. -/
def rotl32 (x s : Nat) : Nat :=
  (x * 2 ^ s + x / 2 ^ (32 - s)) % M32

/-- Little-endian word from a byte list (first byte least significant). -/
def leWord (l : List Nat) : Nat := l.foldr (fun b acc => b + 256 * acc) 0

/-- The four least-significant little-endian bytes of a word. -/
def leBytes4 (x : Nat) : List Nat :=
  [x % 256, x / 256 % 256, x / 65536 % 256, x / 16777216 % 256]

/-- The eight little-endian bytes of a 64-bit quantity. -/
def leBytes8 (x : Nat) : List Nat :=
  leBytes4 (x % M32) ++ leBytes4 (x / M32 % M32)

/-- One MD5 round applied to the working state `(a, b, c, d)`. -/
def md5Round (chunk : List Nat) (st : Nat × Nat × Nat × Nat) (i : Nat) :
    Nat × Nat × Nat × Nat :=
  let (a, b, c, d) := st
  let mask : Nat := M32 - 1
  let fg : Nat × Nat :=
    if i < 16 then ((b &&& c) ||| ((mask ^^^ b) &&& d), i)
    else if i < 32 then ((d &&& b) ||| ((mask ^^^ d) &&& c), (5 * i + 1) % 16)
    else if i < 48 then (b ^^^ c ^^^ d, (3 * i + 5) % 16)
    else (c ^^^ (b ||| (mask ^^^ d)), (7 * i) % 16)
  let m := leWord ((chunk.drop (4 * fg.2)).take 4)
  let f := (fg.1 + a + md5K.getD i 0 + m) % M32
  (d, (b + rotl32 f (md5S.getD i 0)) % M32, b, c)

/-- Absorb one 64-byte chunk into the MD5 accumulator. -/
def md5Chunk (acc : Nat × Nat × Nat × Nat) (chunk : List Nat) :
    Nat × Nat × Nat × Nat :=
  let (a0, b0, c0, d0) := acc
  let r := (List.range 64).foldl (md5Round chunk) (a0, b0, c0, d0)
  ((a0 + r.1) % M32, (b0 + r.2.1) % M32, (c0 + r.2.2.1) % M32, (d0 + r.2.2.2) % M32)

/-- Split a byte list into successive 64-byte chunks (`fuel` bounds the
recursion; callers pass the list length). -/
def chunked64 : Nat → List Nat → List (List Nat)
  | 0, _ => []
  | _, [] => []
  | fuel + 1, msg => msg.take 64 :: chunked64 fuel (msg.drop 64)

/-- RFC 1321 padding: `0x80`, zeros to 56 mod 64, then the 64-bit
little-endian bit length. -/
def md5Pad (msg : List Nat) : List Nat :=
  msg ++ 128 :: List.replicate ((119 - msg.length % 64) % 64) 0
    ++ leBytes8 ((8 * msg.length) % (M32 * M32))

/-- The 16-byte MD5 digest of a byte message (`md5.Sum` in Go). -/
def md5Sum (msg : List Nat) : List Nat :=
  let padded := md5Pad msg
  let st := (chunked64 padded.length padded).foldl md5Chunk
    (0x67452301, 0xefcdab89, 0x98badcfe, 0x10325476)
  leBytes4 st.1 ++ leBytes4 st.2.1 ++ leBytes4 st.2.2.1 ++ leBytes4 st.2.2.2

example :
    md5Sum [] =
      [0xd4, 0x1d, 0x8c, 0xd9, 0x8f, 0x00, 0xb2, 0x04,
       0xe9, 0x80, 0x09, 0x98, 0xec, 0xf8, 0x42, 0x7e] := by decide

example :
    md5Sum (utf8Bytes (lit "abc")) =
      [0x90, 0x01, 0x50, 0x98, 0x3c, 0xd2, 0x4f, 0xb0,
       0xd6, 0x96, 0x3f, 0x7d, 0x28, 0xe1, 0x7f, 0x72] := by decide

/-- `relationMod` from `relation_hash.go`: `4294967295 = 2^32 − 1`. -/
def relationMod : Nat := 4294967295

/-- `binary.BigEndian.Uint64` of an 8-byte window. -/
def beUint64 (l : List Nat) : Nat := l.foldl (fun acc b => acc * 256 + b) 0

/-- `labelRelationHash` from `relation_hash.go`: MD5 the value's UTF-8 bytes,
read `sum[8:]` as a big-endian 64-bit integer, reduce modulo `relationMod`. -/
def labelRelationHash (value : Str) : Nat :=
  beUint64 ((md5Sum (utf8Bytes value)).drop 8) % relationMod

/-! ## The metadata cache (`internal/metrics/cache_manager.go`)

The two `sync.Map` fields are modelled as association lists; `Store` is
remove-then-append, so a key occurs at most once.  Defensive copying
(`cloneStringMap`) is the identity in a pure model. -/

/-- Association-list lookup (`sync.Map.Load`): `some` iff the key is present. -/
def alookup {β : Type} (m : List (Str × β)) (k : Str) : Option β :=
  match m with
  | [] => none
  | (k', v) :: rest => if k' = k then some v else alookup rest k

/-- Association-list removal (`sync.Map.Delete`). -/
def aremove {β : Type} (m : List (Str × β)) (k : Str) : List (Str × β) :=
  m.filter fun e => e.1 ≠ k

/-- Association-list store (`sync.Map.Store`): at most one entry per key. -/
def astore {β : Type} (m : List (Str × β)) (k : Str) (v : β) : List (Str × β) :=
  aremove m k ++ [(k, v)]

/-- The `Cache` struct of `cache_manager.go`: node name → IP and
`"namespace/name"` → label map. -/
structure Cache where
  nodeIPs : List (Str × Str)
  podLabels : List (Str × List (Str × Str))

/-- `cacheKey` from `cache_manager.go` (`fmt.Sprintf("%s/%s", ...)`). -/
def cacheKey (ns podName : Str) : Str :=
  ns ++ '/' :: podName

/-- `Cache.PodLabels`: `some` of the stored map on a hit, `none` on a miss
(the Go `(map, ok)` pair). -/
def Cache.podLabelsGet (c : Cache) (ns podName : Str) :
    Option (List (Str × Str)) :=
  alookup c.podLabels (cacheKey ns podName)

/-- `Cache.NodeIPs`: the stored addresses, skipping empty strings. -/
def Cache.nodeIPList (c : Cache) : List Str :=
  (c.nodeIPs.map Prod.snd).filter (· ≠ [])

/-- `sort.Strings`, modelled as insertion sort under the lexicographic order
on character lists (which agrees with Go's byte order, UTF-8 being
order-preserving). -/
def sortStrs (l : List Str) : List Str := l.insertionSort (· ≤ ·)

/-- The values the `Range` loop of `Cache.UniqueLabelValues` collects for an
(already trimmed) key: the trimmed per-entry values that are non-empty. -/
def observedValues (c : Cache) (label : Str) : List Str :=
  (c.podLabels.map fun e => trimSpace (afind e.2 label)).filter (· ≠ [])

/-- `Cache.UniqueLabelValues` from `cache_manager.go`: trimmed non-empty
values observed for a (trimmed, non-blank) key, deduplicated and sorted. -/
def Cache.uniqueLabelValues (c : Cache) (label : Str) : List Str :=
  let label := trimSpace label
  if label = [] then []
  else
    let values := observedValues c label
    if values = [] then [] else sortStrs values.dedup

/-- `Cache.StorePodLabels`: an empty map deletes the entry. -/
def Cache.storePodLabels (c : Cache) (ns podName : Str)
    (labels : List (Str × Str)) : Cache :=
  if labels = [] then
    { c with podLabels := aremove c.podLabels (cacheKey ns podName) }
  else
    { c with podLabels := astore c.podLabels (cacheKey ns podName) labels }

/-- `Cache.DeletePodLabels`. -/
def Cache.deletePodLabels (c : Cache) (ns podName : Str) : Cache :=
  { c with podLabels := aremove c.podLabels (cacheKey ns podName) }

/-- `Cache.StoreNodeIP`: an empty IP deletes the entry. -/
def Cache.storeNodeIP (c : Cache) (nodeName ip : Str) : Cache :=
  if ip = [] then { c with nodeIPs := aremove c.nodeIPs nodeName }
  else { c with nodeIPs := astore c.nodeIPs nodeName ip }

/-- `Cache.DeleteNode`. -/
def Cache.deleteNode (c : Cache) (nodeName : Str) : Cache :=
  { c with nodeIPs := aremove c.nodeIPs nodeName }

/-- The four cache mutations reachable from the informer event handlers. -/
inductive CacheOp
  | storeNode (name ip : Str)
  | deleteNode (name : Str)
  | storePod (ns name : Str) (labels : List (Str × Str))
  | deletePod (ns name : Str)

/-- Apply one cache mutation. -/
def applyOp (c : Cache) : CacheOp → Cache
  | .storeNode name ip => c.storeNodeIP name ip
  | .deleteNode name => c.deleteNode name
  | .storePod ns name labels => c.storePodLabels ns name labels
  | .deletePod ns name => c.deletePodLabels ns name

/-- The empty cache (`NewCache`). -/
def emptyCache : Cache := ⟨[], []⟩

/-- Run a sequence of cache mutations from the empty cache. -/
def applyOps (ops : List CacheOp) : Cache := ops.foldl applyOp emptyCache

/-! ## The relation metric (`internal/metrics/relation_metrics.go`)

`buildRelationMetrics` receives the `*Service`; the only operation it uses,
`Service.UniqueLabelValues`, is a delegation to `Cache.UniqueLabelValues`
(the delegation's one-line body is not among the provided sources; per the
spec it "gathers the cache's currently known unique values for that key"),
so the service argument is identified with its cache here. -/

/-- `relationMetricName` from `relation_metrics.go`. -/
def relationMetricName : Str := lit "kubelet_cadvisor_label_relation"

/-- `relationDefaultValue` from `relation_metrics.go`: per-key default, else
global default, whitespace-trimmed. -/
def relationDefaultValue (label : Str) (defaults : List (Str × Str)) : Str :=
  if defaults = [] then []
  else
    let v := trimSpace (afind defaults label)
    if v ≠ [] then v else trimSpace (afind defaults globalKey)

/-- The value set `buildRelationMetrics` assembles for one (already trimmed,
non-blank) key: cached unique values re-trimmed and filtered, unioned with
the key's resolved default, deduplicated, sorted. -/
def relationValueSet (c : Cache) (key : Str) (defaults : List (Str × Str)) :
    List Str :=
  let base := ((c.uniqueLabelValues key).map trimSpace).filter (· ≠ [])
  let d := relationDefaultValue key defaults
  let withDefault := if d ≠ [] then base ++ [d] else base
  sortStrs withDefault.dedup

/-- The two-line `HELP`/`TYPE` preamble of the relation metric. -/
def relationPreamble : Str :=
  lit "# HELP " ++ relationMetricName
    ++ lit " Hash of unique pod label values requested via ADD_LABELS.\n"
    ++ lit "# TYPE " ++ relationMetricName ++ lit " gauge\n"

/-- Decimal rendering of a natural number (`strconv.FormatUint`). -/
def natStr (n : Nat) : Str := (Nat.repr n).data

/-- One sample line of the relation metric. -/
def relationSampleLine (key value : Str) : Str :=
  relationMetricName ++ lit "\x7blabel_key=\"" ++ escapeLabelValue key
    ++ lit "\",label_value=\"" ++ escapeLabelValue value ++ lit "\"\x7d "
    ++ natStr (labelRelationHash value) ++ ['\n']

/-- The loop body of `buildRelationMetrics`: state is (accumulated output,
`metricsWritten` flag). -/
def relationStep (c : Cache) (defaults : List (Str × Str))
    (st : Str × Bool) (key : Str) : Str × Bool :=
  let key := trimSpace key
  if key = [] then st
  else
    let values := relationValueSet c key defaults
    if values = [] then st
    else
      let withPreamble := if st.2 then st.1 else st.1 ++ relationPreamble
      (withPreamble ++ (values.map (relationSampleLine key)).flatten, true)

/-- `buildRelationMetrics` from `relation_metrics.go` (`service = nil` cannot
arise in the pure model; the `labelKeys` emptiness guard is kept). -/
def buildRelationMetrics (c : Cache) (labelKeys : List Str)
    (defaults : List (Str × Str)) : Str :=
  if labelKeys = [] then []
  else
    let st := labelKeys.foldl (relationStep c defaults) ([], false)
    if st.2 then st.1 else []

/-- A key contributes to the relation metric when it is non-blank after
trimming and its assembled value set is non-empty. -/
def relationContributes (c : Cache) (defaults : List (Str × Str)) (key : Str) :
    Prop :=
  trimSpace key ≠ [] ∧ relationValueSet c (trimSpace key) defaults ≠ []

instance (c : Cache) (defaults : List (Str × Str)) (key : Str) :
    Decidable (relationContributes c defaults key) :=
  inferInstanceAs (Decidable (_ ∧ _))

/-- The sample lines one key contributes (empty for skipped keys). -/
def relationKeyBlock (c : Cache) (defaults : List (Str × Str)) (key : Str) : Str :=
  let key := trimSpace key
  if key = [] then []
  else ((relationValueSet c key defaults).map (relationSampleLine key)).flatten

/-! ## The collector (`internal/metrics/collector.go`)

`Collect` performs I/O (a token file read, one HTTPS fetch per node); the
embedding abstracts these as explicit inputs: `tokenRead` is the outcome of
`os.ReadFile` (`none` = read error) and `fetch ip` the outcome of
`fetchNode` for address `ip`.  The bounded fan-out writes each address's
outcome into the `results`/`failures` maps exactly once, so after the
`wg.Wait()` barrier the maps equal the per-address outcomes keyed by the
deduplicated address list, which is what the model computes directly. -/

/-- The fetch outcomes `Collect` ends up with in its `results` map:
one entry per distinct address whose fetch succeeded. -/
def scrapeSuccesses (nodeIPs : List Str) (fetch : Str → Except Str Str) :
    List (Str × Str) :=
  nodeIPs.dedup.filterMap fun ip =>
    match fetch ip with
    | .ok data => some (ip, data)
    | .error _ => none

/-- The `failures` map: one entry per distinct address whose fetch failed. -/
def scrapeFailures (nodeIPs : List Str) (fetch : Str → Except Str Str) :
    List (Str × Str) :=
  nodeIPs.dedup.filterMap fun ip =>
    match fetch ip with
    | .ok _ => none
    | .error e => some (ip, e)

/-- The per-node section marker (`"# -------- Node: <ip> --------\n"`). -/
def nodeMarker (ip : Str) : Str :=
  lit "# -------- Node: " ++ ip ++ lit " --------\n"

/-- One node section: marker, payload, newline-terminated. -/
def nodeSection (ip payload : Str) : Str :=
  nodeMarker ip ++ payload ++ (if payload.getLast? = some '\n' then [] else ['\n'])

/-- `combineMetrics` from `collector.go`: successful payloads concatenated in
ascending address order. -/
def combineMetrics (data : List (Str × Str)) : Str :=
  if data = [] then []
  else
    let ips := sortStrs (data.map Prod.fst)
    (ips.map fun ip => nodeSection ip (afind data ip)).flatten

/-- `annotateFailures` from `collector.go`: one `# scrape failures:` comment
line listing `addr=err` pairs in ascending address order, prepended. -/
def annotateFailures (payload : Str) (failures : List (Str × Str)) : Str :=
  if failures = [] then payload
  else
    let ips := sortStrs (failures.map Prod.fst)
    let parts := ips.map fun ip => ip ++ '=' :: afind failures ip
    lit "# scrape failures: " ++ (parts.intersperse (lit "; ")).flatten
      ++ '\n' :: payload

/-- Append of the relation metrics in `Collect`. -/
def appendRelation (payload relation : Str) : Str :=
  if relation = [] then payload
  else
    (if payload.getLast? = some '\n' then payload else payload ++ ['\n']) ++ relation

/-- `Collect` from `collector.go` over explicit I/O outcomes: node addresses
from the cache, token-file read outcome, per-address fetch outcomes, then
combination, failure annotation, relation append and label enrichment. -/
def collect (c : Cache) (tokenRead : Option Str) (fetch : Str → Except Str Str)
    (addLabels labelDefaults : Str)
    (resolvePodLabels : Str → Str → Option (List (Str × Str))) : Except Str Str :=
  let nodeIPs := c.nodeIPList
  if nodeIPs = [] then .error (lit "no node IPs available for scraping")
  else
    match tokenRead with
    | none => .error (lit "read service account token")
    | some raw =>
      if trimSpace raw = [] then .error (lit "service account token is empty")
      else
        let results := scrapeSuccesses nodeIPs fetch
        let failures := scrapeFailures nodeIPs fetch
        if results = [] then
          .error (lit "cadvisor scrape failed for all " ++ natStr nodeIPs.length
            ++ lit " nodes")
        else
          let payload := combineMetrics results
          let payload := if failures ≠ [] then annotateFailures payload failures
            else payload
          let payload := appendRelation payload
            (buildRelationMetrics c (splitLabels addLabels)
              (parseLabelDefaults labelDefaults))
          if addLabels = [] then .ok payload
          else .ok (addLabelsToMetrics payload addLabels labelDefaults resolvePodLabels)

/-- A resolution function whose answer depends on the extracted namespace:
used to exhibit non-idempotence of per-line enrichment. -/
def c3Resolver (ns pod : Str) : Option (List (Str × Str)) :=
  if ns = lit "ns" ∧ pod = lit "p" then some [(lit "a_namespace", lit "zz")]
  else if ns = lit "zz" ∧ pod = lit "p" then some [(lit "b", lit "w")]
  else none

/-- The cache used to witness `uniqueLabelValues_spec`. -/
def c8WitnessCache : Cache :=
  ⟨[], [(cacheKey (lit "ns") (lit "p"), [(lit "team", lit " prod ")]),
        (cacheKey (lit "ns") (lit "q"), [(lit "team", lit "prod")])]⟩

/-! ## C5: Collect failure semantics -/

/-- C5: with no cached addresses `Collect` fails with the no-targets error
regardless of the token file and fetch outcomes (so before either is
consulted); an unreadable or blank token fails before any fetch outcome
matters; if every node's fetch fails, the error names the attempted node
count; and if at least one fetch succeeds, `Collect` returns a payload. -/
theorem collect_failure_semantics :
    (∀ (c : Cache) (tokenRead : Option Str) (fetch : Str → Except Str Str)
        (al ld : Str) (r : Str → Str → Option (List (Str × Str))),
        c.nodeIPList = [] →
        collect c tokenRead fetch al ld r
          = .error (lit "no node IPs available for scraping"))
  ∧ (∀ (c : Cache) (fetch : Str → Except Str Str) (al ld : Str)
        (r : Str → Str → Option (List (Str × Str))),
        c.nodeIPList ≠ [] →
        collect c none fetch al ld r = .error (lit "read service account token"))
  ∧ (∀ (c : Cache) (raw : Str) (fetch : Str → Except Str Str) (al ld : Str)
        (r : Str → Str → Option (List (Str × Str))),
        c.nodeIPList ≠ [] → trimSpace raw = [] →
        collect c (some raw) fetch al ld r
          = .error (lit "service account token is empty"))
  ∧ (∀ (c : Cache) (raw : Str) (fetch : Str → Except Str Str) (al ld : Str)
        (r : Str → Str → Option (List (Str × Str))),
        c.nodeIPList ≠ [] → trimSpace raw ≠ [] →
        (∀ ip ∈ c.nodeIPList, ∃ e, fetch ip = .error e) →
        collect c (some raw) fetch al ld r
          = .error (lit "cadvisor scrape failed for all "
              ++ natStr c.nodeIPList.length ++ lit " nodes"))
  ∧ (∀ (c : Cache) (raw : Str) (fetch : Str → Except Str Str) (al ld : Str)
        (r : Str → Str → Option (List (Str × Str))),
        trimSpace raw ≠ [] →
        (∃ ip ∈ c.nodeIPList, ∃ d, fetch ip = .ok d) →
        ∃ payload, collect c (some raw) fetch al ld r = .ok payload) := by
  refine ⟨?_, ?_, ?_, ?_, ?_⟩
  · intro c tokenRead fetch al ld r h
    simp [collect, h]
  · intro c fetch al ld r h
    simp [collect, h]
  · intro c raw fetch al ld r hne htr
    simp [collect, hne, htr]
  · intro c raw fetch al ld r hne htr hall
    have hsucc : scrapeSuccesses c.nodeIPList fetch = [] := by
      rw [scrapeSuccesses, List.filterMap_eq_nil_iff]
      intro ip hip
      obtain ⟨e, he⟩ := hall ip (List.mem_dedup.mp hip)
      rw [he]
    simp [collect, hne, htr, hsucc]
  · intro c raw fetch al ld r htr ⟨ip, hip, d, hd⟩
    have hne : c.nodeIPList ≠ [] := List.ne_nil_of_mem hip
    have hmem : (ip, d) ∈ scrapeSuccesses c.nodeIPList fetch := by
      rw [scrapeSuccesses]
      exact List.mem_filterMap.mpr ⟨ip, List.mem_dedup.mpr hip, by rw [hd]⟩
    have hsucc : scrapeSuccesses c.nodeIPList fetch ≠ [] :=
      List.ne_nil_of_mem hmem
    by_cases hal : al = []
    · simp [collect, hne, htr, hsucc, hal]
    · simp [collect, hne, htr, hsucc, hal]

/-- Witness for `collect_failure_semantics`: concrete instances of each
failure mode and of the partial-success case. -/
theorem collect_failure_semantics_witness :
    collect emptyCache (some (lit "tok")) (fun _ => .ok (lit "up 1\n"))
        [] [] (fun _ _ => none)
      = .error (lit "no node IPs available for scraping")
  ∧ collect ⟨[(lit "n1", lit "10.0.0.1")], []⟩ none
        (fun _ => .ok (lit "up 1\n")) [] [] (fun _ _ => none)
      = .error (lit "read service account token")
  ∧ collect ⟨[(lit "n1", lit "10.0.0.1")], []⟩ (some (lit " "))
        (fun _ => .ok (lit "up 1\n")) [] [] (fun _ _ => none)
      = .error (lit "service account token is empty")
  ∧ collect ⟨[(lit "n1", lit "10.0.0.1")], []⟩ (some (lit "tok"))
        (fun _ => .error (lit "boom")) [] [] (fun _ _ => none)
      = .error (lit "cadvisor scrape failed for all "
          ++ natStr (Cache.nodeIPList ⟨[(lit "n1", lit "10.0.0.1")], []⟩).length
          ++ lit " nodes")
  ∧ ∃ payload, collect ⟨[(lit "n1", lit "10.0.0.1")], []⟩ (some (lit "tok"))
        (fun _ => .ok (lit "up 1\n")) [] [] (fun _ _ => none) = .ok payload := by
  refine ⟨collect_failure_semantics.1 emptyCache _ _ _ _ _ (by decide),
    collect_failure_semantics.2.1 _ _ _ _ _ (by decide),
    collect_failure_semantics.2.2.1 _ _ _ _ _ _ (by decide) (by decide),
    collect_failure_semantics.2.2.2.1 _ _ _ _ _ _ (by decide) (by decide)
      (fun ip _ => ⟨lit "boom", rfl⟩),
    collect_failure_semantics.2.2.2.2 _ _ _ _ _ _ (by decide)
      ⟨lit "10.0.0.1", by decide, lit "up 1\n", rfl⟩⟩

/-! ## C6: payload composition -/

/-- `sortStrs` output is strictly ascending on duplicate-free input. -/
theorem sortStrs_strict_sorted {l : List Str} (h : l.Nodup) :
    List.Sorted (· < ·) (sortStrs l) :=
  List.Sorted.lt_of_le (List.sorted_insertionSort _ _)
    (((List.perm_insertionSort _ l).nodup_iff).mpr h)

/-- C6: with at least one success and per-address keying, `combineMetrics`
lists node sections in strictly ascending address order, each section led by
the node marker comment and ending with a line terminator; a non-empty
failure map makes `annotateFailures` prepend exactly the single
`# scrape failures:` comment line with address=error pairs in ascending
address order; and non-empty relation text is appended after the sections. -/
theorem combineMetrics_spec (data : List (Str × Str)) (hne : data ≠ [])
    (hnd : (data.map Prod.fst).Nodup) :
    List.Sorted (· < ·) (sortStrs (data.map Prod.fst))
  ∧ combineMetrics data
      = ((sortStrs (data.map Prod.fst)).map fun ip =>
          nodeSection ip (afind data ip)).flatten
  ∧ (∀ ip payload : Str, nodeMarker ip <+: nodeSection ip payload
        ∧ (nodeSection ip payload).getLast? = some '\n')
  ∧ (∀ (p : Str) (fs : List (Str × Str)), fs ≠ [] →
        annotateFailures p fs
          = lit "# scrape failures: "
            ++ (((sortStrs (fs.map Prod.fst)).map fun ip =>
                  ip ++ '=' :: afind fs ip).intersperse (lit "; ")).flatten
            ++ '\n' :: p)
  ∧ (∀ fs : List (Str × Str), (fs.map Prod.fst).Nodup →
        List.Sorted (· < ·) (sortStrs (fs.map Prod.fst)))
  ∧ (∀ p rel : Str, rel ≠ [] →
        appendRelation p rel
          = (if p.getLast? = some '\n' then p else p ++ ['\n']) ++ rel) := by
  refine ⟨sortStrs_strict_sorted hnd, ?_, ?_, ?_, fun fs h => sortStrs_strict_sorted h, ?_⟩
  · rw [combineMetrics, if_neg hne]
  · intro ip payload
    constructor
    · rw [nodeSection, List.append_assoc]
      exact List.prefix_append _ _
    by_cases hp : payload.getLast? = some '\n'
    · have hpe : payload ≠ [] := by
        intro h; rw [h] at hp; exact Option.noConfusion hp
      rw [nodeSection, if_pos hp, List.append_nil,
        List.getLast?_append_of_ne_nil _ hpe]
      exact hp
    · rw [nodeSection, if_neg hp, List.getLast?_append_of_ne_nil _ (by simp)]
      rfl
  · intro p fs h
    rw [annotateFailures, if_neg h]
  · intro p rel h
    rw [appendRelation, if_neg h]

/-- Witness for `combineMetrics_spec` on a concrete two-node result map with
one failure and non-empty relation text. -/
theorem combineMetrics_spec_witness :
    List.Sorted (· < ·)
      (sortStrs ([(lit "10.0.0.2", lit "b 1\n"), (lit "10.0.0.1", lit "a 1")].map
        Prod.fst))
  ∧ combineMetrics [(lit "10.0.0.2", lit "b 1\n"), (lit "10.0.0.1", lit "a 1")]
      = ((sortStrs ([(lit "10.0.0.2", lit "b 1\n"), (lit "10.0.0.1", lit "a 1")].map
          Prod.fst)).map fun ip =>
            nodeSection ip
              (afind [(lit "10.0.0.2", lit "b 1\n"), (lit "10.0.0.1", lit "a 1")] ip)).flatten
  ∧ annotateFailures (lit "x 1\n") [(lit "10.0.0.3", lit "boom")]
      = lit "# scrape failures: "
        ++ (((sortStrs ([(lit "10.0.0.3", lit "boom")].map Prod.fst)).map fun ip =>
              ip ++ '=' :: afind [(lit "10.0.0.3", lit "boom")] ip).intersperse
            (lit "; ")).flatten
        ++ '\n' :: lit "x 1\n"
  ∧ appendRelation (lit "x 1") (lit "# HELP h\n")
      = (if (lit "x 1").getLast? = some '\n' then lit "x 1" else lit "x 1" ++ ['\n'])
        ++ lit "# HELP h\n" := by
  have h := combineMetrics_spec
    [(lit "10.0.0.2", lit "b 1\n"), (lit "10.0.0.1", lit "a 1")]
    (by decide) (by decide)
  exact ⟨h.1, h.2.1, h.2.2.2.1 (lit "x 1\n") [(lit "10.0.0.3", lit "boom")] (by decide),
    h.2.2.2.2.2 (lit "x 1") (lit "# HELP h\n") (by decide)⟩

/-! ## C9: shape of the relation metric output -/

/-- Once the preamble has been written, the fold appends exactly each key's
block. -/
theorem relation_foldl_written (c : Cache) (defaults : List (Str × Str)) :
    ∀ (keys : List Str) (acc : Str),
      keys.foldl (relationStep c defaults) (acc, true)
        = (acc ++ (keys.map (relationKeyBlock c defaults)).flatten, true) := by
  intro keys
  induction keys with
  | nil => intro acc; simp
  | cons k t ih =>
    intro acc
    rw [List.foldl_cons]
    by_cases h1 : trimSpace k = []
    · have hstep : relationStep c defaults (acc, true) k = (acc, true) := by
        simp only [relationStep]; rw [if_pos h1]
      have hblk : relationKeyBlock c defaults k = [] := by
        simp only [relationKeyBlock]; rw [if_pos h1]
      rw [hstep, ih acc]
      simp [hblk]
    · by_cases h2 : relationValueSet c (trimSpace k) defaults = []
      · have hstep : relationStep c defaults (acc, true) k = (acc, true) := by
          simp only [relationStep]; rw [if_neg h1, if_pos h2]
        have hblk : relationKeyBlock c defaults k = [] := by
          simp only [relationKeyBlock]; rw [if_neg h1, h2]; rfl
        rw [hstep, ih acc]
        simp [hblk]
      · have hstep : relationStep c defaults (acc, true) k
            = (acc ++ relationKeyBlock c defaults k, true) := by
          simp only [relationStep, relationKeyBlock]
          rw [if_neg h1, if_neg h2, if_neg h1]
          simp
        rw [hstep, ih]
        simp [List.append_assoc]

/-- While no key contributes, the fold stays at the initial state. -/
theorem relation_foldl_skip (c : Cache) (defaults : List (Str × Str)) :
    ∀ keys : List Str, (∀ k ∈ keys, ¬relationContributes c defaults k) →
      keys.foldl (relationStep c defaults) ([], false) = ([], false) := by
  intro keys
  induction keys with
  | nil => intro _; rfl
  | cons k t ih =>
    intro h
    rw [List.foldl_cons]
    have hk := h k (List.mem_cons_self k t)
    have hstep : relationStep c defaults ([], false) k = ([], false) := by
      simp only [relationStep]
      by_cases h1 : trimSpace k = []
      · rw [if_pos h1]
      · have h2 : relationValueSet c (trimSpace k) defaults = [] := by
          by_contra h2
          exact hk ⟨h1, h2⟩
        rw [if_neg h1, if_pos h2]
    rw [hstep]
    exact ih fun l hl => h l (List.mem_cons_of_mem k hl)

/-- As soon as some key contributes, the fold result is the preamble followed
by every key's block. -/
theorem relation_foldl_contrib (c : Cache) (defaults : List (Str × Str)) :
    ∀ keys : List Str, (∃ k ∈ keys, relationContributes c defaults k) →
      keys.foldl (relationStep c defaults) ([], false)
        = (relationPreamble ++ (keys.map (relationKeyBlock c defaults)).flatten,
            true) := by
  intro keys
  induction keys with
  | nil => rintro ⟨k, hk, _⟩; exact absurd hk (List.not_mem_nil k)
  | cons k t ih =>
    rintro ⟨k', hk', hc⟩
    rw [List.foldl_cons]
    by_cases hck : relationContributes c defaults k
    · have hstep : relationStep c defaults ([], false) k
          = (relationPreamble ++ relationKeyBlock c defaults k, true) := by
        simp only [relationStep, relationKeyBlock]
        rw [if_neg hck.1, if_neg hck.2, if_neg hck.1]
        simp
      rw [hstep, relation_foldl_written c defaults t]
      simp [List.append_assoc]
    · have hstep : relationStep c defaults ([], false) k = ([], false) := by
        simp only [relationStep]
        by_cases h1 : trimSpace k = []
        · rw [if_pos h1]
        · have h2 : relationValueSet c (trimSpace k) defaults = [] := by
            by_contra h2
            exact hck ⟨h1, h2⟩
          rw [if_neg h1, if_pos h2]
      have hblk : relationKeyBlock c defaults k = [] := by
        simp only [relationKeyBlock]
        by_cases h1 : trimSpace k = []
        · rw [if_pos h1]
        · have h2 : relationValueSet c (trimSpace k) defaults = [] := by
            by_contra h2
            exact hck ⟨h1, h2⟩
          rw [if_neg h1, h2]; rfl
      have hmem : ∃ l ∈ t, relationContributes c defaults l := by
        rcases List.mem_cons.mp hk' with h | h
        · exact absurd (h ▸ hc) hck
        · exact ⟨k', h, hc⟩
      rw [hstep, ih hmem]
      simp [hblk]

/-- C9: `buildRelationMetrics` is empty exactly when no (trimmed, non-blank)
key yields a non-empty value set; otherwise it is the two-line `HELP`/`TYPE`
preamble emitted once, followed by each contributing key's sample lines,
whose values appear in ascending sorted order (each line carrying
`label_key`, `label_value` and the value's digest via
`relationSampleLine`). -/
theorem buildRelationMetrics_spec (c : Cache) (keys : List Str)
    (defaults : List (Str × Str)) :
    (buildRelationMetrics c keys defaults = [] ↔
      ∀ k ∈ keys, ¬relationContributes c defaults k)
  ∧ ((∃ k ∈ keys, relationContributes c defaults k) →
      buildRelationMetrics c keys defaults
        = relationPreamble ++ (keys.map (relationKeyBlock c defaults)).flatten)
  ∧ (∀ key : Str, List.Sorted (· ≤ ·) (relationValueSet c key defaults)) := by
  have hpre : relationPreamble ≠ [] := by decide
  have hcontrib : (∃ k ∈ keys, relationContributes c defaults k) →
      buildRelationMetrics c keys defaults
        = relationPreamble ++ (keys.map (relationKeyBlock c defaults)).flatten := by
    intro h
    have hne : keys ≠ [] := by
      rcases h with ⟨k, hk, _⟩
      exact List.ne_nil_of_mem hk
    rw [buildRelationMetrics, if_neg hne, relation_foldl_contrib c defaults keys h]
    rfl
  refine ⟨⟨?_, ?_⟩, hcontrib, fun key => List.sorted_insertionSort _ _⟩
  · intro hempty k hk hc
    have := hcontrib ⟨k, hk, hc⟩
    rw [hempty] at this
    exact (List.append_ne_nil_of_left_ne_nil hpre _) this.symm
  · intro hall
    by_cases hne : keys = []
    · rw [buildRelationMetrics, if_pos hne]
    · rw [buildRelationMetrics, if_neg hne, relation_foldl_skip c defaults keys hall]
      rfl

/-- Witness for `buildRelationMetrics_spec`: a blank-only key list yields the
empty string, and a contributing key yields the preamble plus its block. -/
theorem buildRelationMetrics_spec_witness :
    buildRelationMetrics c8WitnessCache [lit " "] [] = []
  ∧ buildRelationMetrics c8WitnessCache [lit "team"] []
      = relationPreamble
        ++ ([lit "team"].map (relationKeyBlock c8WitnessCache [])).flatten :=
  ⟨(buildRelationMetrics_spec c8WitnessCache [lit " "] []).1.mpr (by decide),
   (buildRelationMetrics_spec c8WitnessCache [lit "team"] []).2.1
     ⟨lit "team", by decide, by decide⟩⟩

/-! ## C1: the concrete default-resolution case -/

/-- C1, counterexample: with resolved labels empty, defaults `env=dev` and
target labels `env,tier`, processing `foo{namespace="ns",pod="p"} 1` does
NOT yield `foo{namespace="ns",pod="p",env="dev"} 1`: the code trims the text
after the last closing brace, so the space before the sample value is lost. -/
theorem processMetricLine_c1_not_as_claimed :
    processMetricLine (fun _ _ => some []) (splitLabels (lit "env,tier"))
        (parseLabelDefaults (lit "env=dev")) (lit "foo\x7bnamespace=\"ns\",pod=\"p\"\x7d 1")
      ≠ lit "foo\x7bnamespace=\"ns\",pod=\"p\",env=\"dev\"\x7d 1" := by decide

/-- C1, amended: the `env` label (per-key default `dev`) is injected before
the last closing brace and `tier` is not injected, but the tail after the
brace is whitespace-trimmed, so the output is
`foo{namespace="ns",pod="p",env="dev"}1` (no space before the value). -/
theorem processMetricLine_c1_actual :
    processMetricLine (fun _ _ => some []) (splitLabels (lit "env,tier"))
        (parseLabelDefaults (lit "env=dev")) (lit "foo\x7bnamespace=\"ns\",pod=\"p\"\x7d 1")
      = lit "foo\x7bnamespace=\"ns\",pod=\"p\",env=\"dev\"\x7d1" := by decide

/-! ## C2: skip-if-present is a substring test, not an exact-key test -/

/-- C2, counterexample: the skip test is `strings.Contains(mutated, label+"=")`;
the segment `myapp="x"` contains the substring `app=`, so injection of `app`
is suppressed even though the resolved labels carry a non-empty value for it
and no identifier segment with exact key `app` is present. -/
theorem processMetricLine_c2_suppressed_by_substring :
    processMetricLine (fun _ _ => some [(lit "app", lit "v")]) [lit "app"] []
        (lit "bar\x7bnamespace=\"ns\",pod=\"p\",myapp=\"x\"\x7d 1")
      = lit "bar\x7bnamespace=\"ns\",pod=\"p\",myapp=\"x\"\x7d 1"
  ∧ labelValue (lit "app") (some [(lit "app", lit "v")]) [] ≠ [] := by
  exact ⟨by decide, by decide⟩

/-- C2, amended: injection of a target label is skipped whenever the line
contains `label=` as a plain substring anywhere — in particular a longer
label name ending in the target name (`myapp="x"` vs `app`) does suppress
injection; if every target label occurs this way, the line is unchanged. -/
theorem processMetricLine_skips_on_substring
    (resolve : Str → Str → Option (List (Str × Str)))
    (targetLabels : List Str) (defaults : List (Str × Str)) (line : Str)
    (h : ∀ l ∈ targetLabels, (l ++ ['=']) <:+: line) :
    processMetricLine resolve targetLabels defaults line = line := by
  have main : ∀ (ls : List Str) (pl : Option (List (Str × Str))),
      (∀ l ∈ ls, (l ++ ['=']) <:+: line) →
      ls.foldl (injectStep pl defaults) line = line := by
    intro ls pl hls
    induction ls with
    | nil => rfl
    | cons a t ih =>
      have ha : injectStep pl defaults line a = line := by
        unfold injectStep
        rw [if_pos (hls a (List.mem_cons_self a t))]
      rw [List.foldl_cons, ha]
      exact ih fun l hl => hls l (List.mem_cons_of_mem a hl)
  by_cases he : (extractNamespaceAndPod line).1 = [] ∨ (extractNamespaceAndPod line).2 = []
  · simp [processMetricLine, he]
  · simp only [processMetricLine, if_neg he]
    exact main targetLabels _ h

/-- Witness for `processMetricLine_skips_on_substring` at the C2
counterexample input. -/
theorem processMetricLine_skips_on_substring_witness :
    processMetricLine (fun _ _ => some [(lit "app", lit "v")]) [lit "app"] []
        (lit "bar\x7bnamespace=\"ns\",pod=\"p\",myapp=\"x\"\x7d 1")
      = lit "bar\x7bnamespace=\"ns\",pod=\"p\",myapp=\"x\"\x7d 1" :=
  processMetricLine_skips_on_substring (fun _ _ => some [(lit "app", lit "v")])
    [lit "app"] [] (lit "bar\x7bnamespace=\"ns\",pod=\"p\",myapp=\"x\"\x7d 1")
    (by decide)

/-! ## C10: the dimension regexps match inside longer label names -/

/-- C10: `pod="([^"]+)"` matches its leftmost occurrence anywhere in the
line, so on a line carrying `exported_pod="x"` before `pod="real"` the
captured pod is `x`, and enrichment resolves labels for `("ns", "x")` rather
than for the line's actual pod dimension `real`. -/
theorem extractNamespaceAndPod_matches_inside_longer_name :
    extractNamespaceAndPod
        (lit "foo\x7bnamespace=\"ns\",exported_pod=\"x\",pod=\"real\"\x7d 1")
      = (lit "ns", lit "x")
  ∧ processMetricLine
      (fun ns pod =>
        if ns = lit "ns" ∧ pod = lit "x" then some [(lit "team", lit "fromx")]
        else some [(lit "team", lit "fromreal")])
      [lit "team"] []
      (lit "foo\x7bnamespace=\"ns\",exported_pod=\"x\",pod=\"real\"\x7d 1")
      = lit "foo\x7bnamespace=\"ns\",exported_pod=\"x\",pod=\"real\",team=\"fromx\"\x7d1" := by
  exact ⟨by decide, by decide⟩

/-! ## C4: the relation digest -/

/-- C4: `labelRelationHash` takes the MD5 digest of the value's UTF-8 bytes,
reads the fixed window `sum[8:]` as a big-endian unsigned 64-bit integer and
reduces it modulo `2^32 − 1`; it is a pure function of the value (equal
inputs give equal digests) and its result always lies in `[0, 2^32 − 2]`. -/
theorem labelRelationHash_spec (value : Str) :
    labelRelationHash value
        = beUint64 ((md5Sum (utf8Bytes value)).drop 8) % (2 ^ 32 - 1)
  ∧ (∀ w : Str, w = value → labelRelationHash w = labelRelationHash value)
  ∧ labelRelationHash value ≤ 2 ^ 32 - 2 := by
  refine ⟨by norm_num [labelRelationHash, relationMod], fun w hw => by rw [hw], ?_⟩
  have h : labelRelationHash value < relationMod :=
    Nat.mod_lt _ (by norm_num [relationMod])
  have h2 : relationMod = 2 ^ 32 - 1 := by norm_num [relationMod]
  omega

/-- Witness for `labelRelationHash_spec` at the value `prod`. -/
theorem labelRelationHash_spec_witness :
    labelRelationHash (lit "prod") = labelRelationHash (lit "prod")
  ∧ labelRelationHash (lit "prod") ≤ 2 ^ 32 - 2 :=
  ⟨(labelRelationHash_spec (lit "prod")).2.1 (lit "prod") rfl,
   (labelRelationHash_spec (lit "prod")).2.2⟩

/-! ## C7: empty payloads and cache deletion -/

/-- C7, counterexample: `StorePodLabels` deletes the entry only when the map
has zero keys (`len(labels) == 0`); a non-empty map all of whose values are
empty strings is stored, not removed. -/
theorem storePodLabels_allEmpty_retained :
    ¬ ((emptyCache.storePodLabels (lit "ns") (lit "p") [(lit "a", [])]).podLabelsGet
        (lit "ns") (lit "p") = none) := by decide

/-- C7, amended: `StoreNodeIP` with an empty address equals `DeleteNode` and
`StorePodLabels` with an empty (zero-key) map equals `DeletePodLabels`, and
after any sequence of store/delete operations no cached entry holds an empty
address or a zero-key label map — but a non-empty label map whose values are
all empty strings is retained, not removed. -/
theorem cache_empty_payload_semantics :
    (∀ (c : Cache) (name : Str), c.storeNodeIP name [] = c.deleteNode name)
  ∧ (∀ (c : Cache) (ns n : Str), c.storePodLabels ns n [] = c.deletePodLabels ns n)
  ∧ (∀ ops : List CacheOp,
      (∀ e ∈ (applyOps ops).nodeIPs, e.2 ≠ []) ∧
      (∀ e ∈ (applyOps ops).podLabels, e.2 ≠ [])) := by
  refine ⟨fun c name => by simp [Cache.storeNodeIP, Cache.deleteNode],
    fun c ns n => by simp [Cache.storePodLabels, Cache.deletePodLabels], ?_⟩
  have step : ∀ (c : Cache) (op : CacheOp),
      ((∀ e ∈ c.nodeIPs, e.2 ≠ []) ∧ (∀ e ∈ c.podLabels, e.2 ≠ [])) →
      ((∀ e ∈ (applyOp c op).nodeIPs, e.2 ≠ []) ∧
        (∀ e ∈ (applyOp c op).podLabels, e.2 ≠ [])) := by
    rintro c op ⟨hn, hp⟩
    cases op with
    | storeNode name ip =>
      simp only [applyOp, Cache.storeNodeIP]
      by_cases hip : ip = []
      · rw [if_pos hip]
        exact ⟨fun e he => hn e (List.mem_of_mem_filter he), hp⟩
      · rw [if_neg hip]
        refine ⟨fun e he => ?_, hp⟩
        simp only [astore, aremove] at he
        rcases List.mem_append.mp he with he | he
        · exact hn e (List.mem_of_mem_filter he)
        · rw [List.mem_singleton.mp he]; exact hip
    | deleteNode name =>
      simp only [applyOp, Cache.deleteNode]
      exact ⟨fun e he => hn e (List.mem_of_mem_filter he), hp⟩
    | storePod ns n labels =>
      simp only [applyOp, Cache.storePodLabels]
      by_cases hl : labels = []
      · rw [if_pos hl]
        exact ⟨hn, fun e he => hp e (List.mem_of_mem_filter he)⟩
      · rw [if_neg hl]
        refine ⟨hn, fun e he => ?_⟩
        simp only [astore, aremove] at he
        rcases List.mem_append.mp he with he | he
        · exact hp e (List.mem_of_mem_filter he)
        · rw [List.mem_singleton.mp he]; exact hl
    | deletePod ns n =>
      simp only [applyOp, Cache.deletePodLabels]
      exact ⟨hn, fun e he => hp e (List.mem_of_mem_filter he)⟩
  have all : ∀ (ops : List CacheOp) (c : Cache),
      ((∀ e ∈ c.nodeIPs, e.2 ≠ []) ∧ (∀ e ∈ c.podLabels, e.2 ≠ [])) →
      ((∀ e ∈ (ops.foldl applyOp c).nodeIPs, e.2 ≠ []) ∧
        (∀ e ∈ (ops.foldl applyOp c).podLabels, e.2 ≠ [])) := by
    intro ops
    induction ops with
    | nil => exact fun c h => h
    | cons op t ih => exact fun c h => ih _ (step c op h)
  intro ops
  exact all ops emptyCache ⟨by simp [emptyCache], by simp [emptyCache]⟩

/-- Witness for `cache_empty_payload_semantics`: the entry stored by a
concrete `storeNode` operation has a non-empty address. -/
theorem cache_empty_payload_semantics_witness :
    ((lit "n", lit "10.0.0.1") : Str × Str).2 ≠ [] :=
  (cache_empty_payload_semantics.2.2
      [CacheOp.storeNode (lit "n") (lit "10.0.0.1")]).1
    (lit "n", lit "10.0.0.1") (by decide)

/-! ## C8: unique label values -/

/-- C8: `UniqueLabelValues` returns a duplicate-free, ascending-sorted list
whose elements are non-empty whitespace-trimmed values observed for the
(trimmed) key across cached pod label maps, and a blank key yields the empty
result. -/
theorem uniqueLabelValues_spec (c : Cache) (label : Str) :
    (c.uniqueLabelValues label).Nodup
  ∧ List.Sorted (· ≤ ·) (c.uniqueLabelValues label)
  ∧ (∀ v ∈ c.uniqueLabelValues label,
      v ≠ [] ∧ v ∈ c.podLabels.map fun e => trimSpace (afind e.2 (trimSpace label)))
  ∧ (trimSpace label ≠ [] →
      ∀ v ∈ observedValues c (trimSpace label), v ∈ c.uniqueLabelValues label)
  ∧ (trimSpace label = [] → c.uniqueLabelValues label = []) := by
  by_cases h1 : trimSpace label = []
  · have hz : c.uniqueLabelValues label = [] := by
      simp only [Cache.uniqueLabelValues]
      rw [if_pos h1]
    exact ⟨by simp [hz], by simp [hz], by simp [hz],
      fun hne => absurd h1 hne, fun _ => hz⟩
  · by_cases h2 : observedValues c (trimSpace label) = []
    · have hz : c.uniqueLabelValues label = [] := by
        simp only [Cache.uniqueLabelValues]
        rw [if_neg h1, if_pos h2]
      refine ⟨by simp [hz], by simp [hz], by simp [hz], ?_, fun h => absurd h h1⟩
      intro _ v hv
      rw [h2] at hv
      exact absurd hv (List.not_mem_nil v)
    · have hval : c.uniqueLabelValues label
          = sortStrs (observedValues c (trimSpace label)).dedup := by
        simp only [Cache.uniqueLabelValues]
        rw [if_neg h1, if_neg h2]
      have hperm : List.Perm (c.uniqueLabelValues label)
          (observedValues c (trimSpace label)).dedup := by
        rw [hval]; exact List.perm_insertionSort _ _
      refine ⟨hperm.nodup_iff.mpr (List.nodup_dedup _), ?_, fun v hv => ?_,
        fun _ v hv => hperm.mem_iff.mpr (List.mem_dedup.mpr hv),
        fun h => absurd h h1⟩
      · rw [hval]; exact List.sorted_insertionSort _ _
      · have hm := List.mem_dedup.mp (hperm.mem_iff.mp hv)
        have hm3 := List.mem_filter.mp hm
        exact ⟨by simpa using hm3.2, hm3.1⟩

/-- Witness for `uniqueLabelValues_spec`: the value `prod` returned for key
`team` is non-empty and observed, and a blank key yields `[]`. -/
theorem uniqueLabelValues_spec_witness :
    (lit "prod" ≠ [] ∧ lit "prod" ∈ c8WitnessCache.podLabels.map fun e =>
        trimSpace (afind e.2 (trimSpace (lit "team"))))
  ∧ c8WitnessCache.uniqueLabelValues (lit " ") = [] :=
  ⟨(uniqueLabelValues_spec c8WitnessCache (lit "team")).2.2.1 (lit "prod") (by decide),
   (uniqueLabelValues_spec c8WitnessCache (lit " ")).2.2.2.2 (by decide)⟩

/-! ## C3: idempotence of per-line processing -/

/-- `breakLast` decomposes at an occurrence of `c`. -/
theorem breakLast_some_eq {c : Char} :
    ∀ {s h t : Str}, breakLast c s = some (h, t) → s = h ++ c :: t := by
  intro s
  induction s with
  | nil => intro h t hb; exact Option.noConfusion hb
  | cons a rest ih =>
    intro h t hb
    rw [breakLast] at hb
    cases hbr : breakLast c rest with
    | some pr =>
      rw [hbr] at hb
      obtain ⟨h', t'⟩ := pr
      simp only [Option.some.injEq, Prod.mk.injEq] at hb
      obtain ⟨rfl, rfl⟩ := hb
      simpa using congrArg (a :: ·) (ih hbr)
    | none =>
      rw [hbr] at hb
      by_cases hac : a = c
      · rw [if_pos hac] at hb
        simp only [Option.some.injEq, Prod.mk.injEq] at hb
        obtain ⟨rfl, rfl⟩ := hb
        subst hac
        rfl
      · rw [if_neg hac] at hb
        exact Option.noConfusion hb

/-- `breakLast` fails exactly when the character is absent. -/
theorem breakLast_none_iff {c : Char} :
    ∀ {s : Str}, breakLast c s = none ↔ c ∉ s := by
  intro s
  induction s with
  | nil => simp [breakLast]
  | cons a rest ih =>
    rw [breakLast]
    cases hbr : breakLast c rest with
    | some pr =>
      have hmem : c ∈ rest := by
        by_contra hc
        rw [ih.mpr hc] at hbr
        exact Option.noConfusion hbr
      simp [hmem]
    | none =>
      have hnm : c ∉ rest := ih.mp hbr
      by_cases hac : a = c
      · subst hac
        simp
      · have hcm : c ∉ a :: rest := by
          intro hm
          rcases List.mem_cons.mp hm with h | h
          · exact hac h.symm
          · exact hnm h
        simp [if_neg hac, hcm]

/-- A prefix of `h ++ c :: t` avoiding `c` is a prefix of `h`. -/
theorem prefix_split {c : Char} :
    ∀ {h : Str} {p t : Str}, c ∉ p → p <+: h ++ c :: t → p <+: h := by
  intro h
  induction h with
  | nil =>
    intro p t hc hp
    cases p with
    | nil => exact List.nil_prefix
    | cons x p' =>
      rw [List.nil_append, List.cons_prefix_cons] at hp
      exact absurd (hp.1 ▸ List.mem_cons_self x p') hc
  | cons a h' ih =>
    intro p t hc hp
    cases p with
    | nil => exact List.nil_prefix
    | cons x p' =>
      rw [List.cons_append, List.cons_prefix_cons] at hp
      exact List.cons_prefix_cons.mpr
        ⟨hp.1, ih (fun hm => hc (List.mem_cons_of_mem x hm)) hp.2⟩

/-- An infix of `h ++ c :: t` avoiding `c` lies inside `h` or inside `t`. -/
theorem infix_split {c : Char} :
    ∀ {h : Str} {p t : Str}, c ∉ p → p <:+: h ++ c :: t → p <:+: h ∨ p <:+: t := by
  intro h
  induction h with
  | nil =>
    intro p t hc hp
    rw [List.nil_append] at hp
    rcases List.infix_cons_iff.mp hp with hpre | hinf
    · left
      have := prefix_split (h := []) hc (by simpa using hpre)
      simp_all
    · right; exact hinf
  | cons a h' ih =>
    intro p t hc hp
    rw [List.cons_append] at hp
    rcases List.infix_cons_iff.mp hp with hpre | hinf
    · left
      exact (prefix_split (h := a :: h') hc (by simpa using hpre)).isInfix
    · rcases ih hc hinf with hh | ht
      · left; exact List.infix_cons_iff.mpr (Or.inr hh)
      · right; exact ht

/-- A whitespace-free infix survives `dropWhile goIsSpace`. -/
theorem infix_dropWhile_of_nonspace {p : Str}
    (hp : ∀ ch ∈ p, goIsSpace ch = false) :
    ∀ {t : Str}, p <:+: t → p <:+: t.dropWhile goIsSpace := by
  intro t
  induction t with
  | nil => intro h; simpa using h
  | cons a t' ih =>
    intro h
    rw [List.dropWhile_cons]
    by_cases hsp : goIsSpace a = true
    · rw [if_pos hsp]
      rcases List.infix_cons_iff.mp h with hpre | hinf
      · cases p with
        | nil => exact List.nil_infix
        | cons x p' =>
          rw [List.cons_prefix_cons] at hpre
          have hx := hp x (List.mem_cons_self x p')
          rw [hpre.1] at hx
          rw [hx] at hsp
          exact absurd hsp Bool.false_ne_true
      · exact ih hinf
    · rw [if_neg hsp]
      exact h

/-- A whitespace-free infix survives `trimSpace`. -/
theorem infix_trimSpace_of_nonspace {p t : Str}
    (hp : ∀ ch ∈ p, goIsSpace ch = false) (h : p <:+: t) :
    p <:+: trimSpace t := by
  rw [trimSpace]
  have s1 := infix_dropWhile_of_nonspace hp h
  have s2 : p.reverse <:+: (t.dropWhile goIsSpace).reverse :=
    List.reverse_infix.mpr s1
  have hp' : ∀ ch ∈ p.reverse, goIsSpace ch = false := fun ch hm =>
    hp ch (List.mem_reverse.mp hm)
  have s3 := infix_dropWhile_of_nonspace hp' s2
  simpa using List.reverse_infix.mpr s3

/-- Without a closing brace, `injectStep` is the identity. -/
theorem injectStep_not_brace {pl : Option (List (Str × Str))}
    {d : List (Str × Str)} {s l' : Str} (h : '}' ∉ s) :
    injectStep pl d s l' = s := by
  by_cases h1 : (l' ++ ['=']) <:+: s
  · simp only [injectStep]; rw [if_pos h1]
  · by_cases h2 : labelValue l' pl d = []
    · simp only [injectStep]; rw [if_neg h1, if_pos h2]
    · simp only [injectStep]; rw [if_neg h1, if_neg h2, breakLast_none_iff.mpr h]

/-- `injectStep` on a blocked label is the identity. -/
theorem injectStep_of_blocked {pl : Option (List (Str × Str))}
    {d : List (Str × Str)} {l s : Str} (hb : blockedLabel pl d l s) :
    injectStep pl d s l = s := by
  rcases hb with h | h | h
  · simp only [injectStep]; rw [if_pos h]
  · by_cases h1 : (l ++ ['=']) <:+: s
    · simp only [injectStep]; rw [if_pos h1]
    · simp only [injectStep]; rw [if_neg h1, if_pos h]
  · exact injectStep_not_brace h

/-- A brace-free, whitespace-free infix survives `injectStep`. -/
theorem injectStep_infix {p : Str} (hws : ∀ ch ∈ p, goIsSpace ch = false)
    (hbr : '}' ∉ p) {pl : Option (List (Str × Str))} {d : List (Str × Str)}
    {s l' : Str} (h : p <:+: s) : p <:+: injectStep pl d s l' := by
  by_cases h1 : (l' ++ ['=']) <:+: s
  · simpa only [injectStep, if_pos h1] using h
  · by_cases h2 : labelValue l' pl d = []
    · simp only [injectStep]; rw [if_neg h1, if_pos h2]; exact h
    · cases hbl : breakLast '}' s with
      | none =>
        simp only [injectStep]; rw [if_neg h1, if_neg h2, hbl]; exact h
      | some pr =>
        obtain ⟨hd, tl⟩ := pr
        have hs : s = hd ++ '}' :: tl := breakLast_some_eq hbl
        have hstep : injectStep pl d s l'
            = hd ++ [','] ++ l' ++ ['=', '"']
              ++ escapeLabelValue (labelValue l' pl d)
              ++ ['"', '}'] ++ trimSpace tl := by
          simp only [injectStep]; rw [if_neg h1, if_neg h2, hbl]
        rw [hstep]
        rcases infix_split hbr (hs ▸ h) with hh | ht
        · have hpre : hd <+: hd ++ [','] ++ l' ++ ['=', '"']
              ++ escapeLabelValue (labelValue l' pl d)
              ++ ['"', '}'] ++ trimSpace tl := by
            simp only [List.append_assoc]
            exact List.prefix_append _ _
          exact hh.trans hpre.isInfix
        · exact (infix_trimSpace_of_nonspace hws ht).trans
            (List.suffix_append _ _).isInfix

/-- After its own step, a label is blocked. -/
theorem injectStep_blocks_self {l : Str}
    (pl : Option (List (Str × Str))) (d : List (Str × Str)) (s : Str) :
    blockedLabel pl d l (injectStep pl d s l) := by
  by_cases h1 : (l ++ ['=']) <:+: s
  · left
    simpa only [injectStep, if_pos h1] using h1
  · by_cases h2 : labelValue l pl d = []
    · right; left; exact h2
    · cases hbl : breakLast '}' s with
      | none =>
        right; right
        have : injectStep pl d s l = s := by
          simp only [injectStep]; rw [if_neg h1, if_neg h2, hbl]
        rw [this]
        exact breakLast_none_iff.mp hbl
      | some pr =>
        obtain ⟨hd, tl⟩ := pr
        left
        have hstep : injectStep pl d s l
            = hd ++ [','] ++ l ++ ['=', '"']
              ++ escapeLabelValue (labelValue l pl d)
              ++ ['"', '}'] ++ trimSpace tl := by
          simp only [injectStep]; rw [if_neg h1, if_neg h2, hbl]
        rw [hstep]
        refine ⟨hd ++ [','],
          ['"'] ++ escapeLabelValue (labelValue l pl d) ++ ['"', '}'] ++ trimSpace tl,
          ?_⟩
        simp [List.append_assoc]

/-- Blockedness of a well-formed label survives any later step. -/
theorem injectStep_preserves_blocked {l : Str}
    (hwf : ∀ ch ∈ l, goIsSpace ch = false ∧ ch ≠ '}')
    {pl : Option (List (Str × Str))} {d : List (Str × Str)} {s l' : Str}
    (hb : blockedLabel pl d l s) : blockedLabel pl d l (injectStep pl d s l') := by
  rcases hb with h | h | h
  · left
    have hws : ∀ ch ∈ l ++ ['='], goIsSpace ch = false := by
      intro ch hm
      rcases List.mem_append.mp hm with hm | hm
      · exact (hwf ch hm).1
      · rw [List.mem_singleton.mp hm]; rfl
    have hbr : '}' ∉ l ++ ['='] := by
      intro hm
      rcases List.mem_append.mp hm with hm | hm
      · exact (hwf '}' hm).2 rfl
      · exact absurd (List.mem_singleton.mp hm) (by decide)
    exact injectStep_infix hws hbr h
  · right; left; exact h
  · right; right
    rw [injectStep_not_brace h]
    exact h

/-- Blockedness survives a whole fold over later labels. -/
theorem foldl_preserves_blocked {l : Str}
    (hwf : ∀ ch ∈ l, goIsSpace ch = false ∧ ch ≠ '}')
    {pl : Option (List (Str × Str))} {d : List (Str × Str)} :
    ∀ (ls : List Str) (acc : Str), blockedLabel pl d l acc →
      blockedLabel pl d l (ls.foldl (injectStep pl d) acc) := by
  intro ls
  induction ls with
  | nil => exact fun acc h => h
  | cons a t ih =>
    intro acc h
    rw [List.foldl_cons]
    exact ih _ (injectStep_preserves_blocked hwf h)

/-- After the fold has processed a well-formed label, it is blocked. -/
theorem foldl_blocks_mem {pl : Option (List (Str × Str))} {d : List (Str × Str)} :
    ∀ (ls : List Str) (acc l : Str),
      (∀ m ∈ ls, ∀ ch ∈ m, goIsSpace ch = false ∧ ch ≠ '}') → l ∈ ls →
      blockedLabel pl d l (ls.foldl (injectStep pl d) acc) := by
  intro ls
  induction ls with
  | nil => intro acc l _ hl; exact absurd hl (List.not_mem_nil l)
  | cons a t ih =>
    intro acc l hwf hl
    rw [List.foldl_cons]
    rcases List.mem_cons.mp hl with rfl | hl
    · exact foldl_preserves_blocked (hwf l (List.mem_cons_self l t)) t _
        (injectStep_blocks_self pl d acc)
    · exact ih _ l (fun m hm => hwf m (List.mem_cons_of_mem a hm)) hl

/-- A fold over labels that are all blocked is the identity. -/
theorem foldl_of_all_blocked {pl : Option (List (Str × Str))}
    {d : List (Str × Str)} :
    ∀ (ls : List Str) (acc : Str), (∀ l ∈ ls, blockedLabel pl d l acc) →
      ls.foldl (injectStep pl d) acc = acc := by
  intro ls
  induction ls with
  | nil => intro acc _; rfl
  | cons a t ih =>
    intro acc h
    rw [List.foldl_cons, injectStep_of_blocked (h a (List.mem_cons_self a t))]
    exact ih acc fun l hl => h l (List.mem_cons_of_mem a hl)

/-- C3, counterexample: per-line enrichment is not idempotent for every
resolution function.  Injecting `a_namespace="zz"` creates an earlier
`namespace="..."` match, so the second pass resolves labels for a different
workload and injects `b="w"` that the first pass did not. -/
theorem processMetricLine_not_idempotent :
    processMetricLine c3Resolver [lit "a_namespace", lit "b"] []
        (processMetricLine c3Resolver [lit "a_namespace", lit "b"] []
          (lit "foo\x7bpod=\"p\"\x7d namespace=\"ns\""))
      ≠ processMetricLine c3Resolver [lit "a_namespace", lit "b"] []
          (lit "foo\x7bpod=\"p\"\x7d namespace=\"ns\"") := by decide

/-- C3, amended: per-line processing is idempotent whenever the resolution
used on the enriched line agrees with the one used on the original line
(in particular for every constant resolver) and the target labels contain no
whitespace and no closing-brace character; with a resolver that depends on
the re-extracted namespace/pod it can fail (see the counterexample). -/
theorem processMetricLine_idempotent_of_stable_resolution
    (resolve : Str → Str → Option (List (Str × Str)))
    (targetLabels : List Str) (defaults : List (Str × Str)) (line : Str)
    (hwf : ∀ l ∈ targetLabels, ∀ ch ∈ l, goIsSpace ch = false ∧ ch ≠ '}')
    (hres : resolve
        (extractNamespaceAndPod (processMetricLine resolve targetLabels defaults line)).1
        (extractNamespaceAndPod (processMetricLine resolve targetLabels defaults line)).2
      = resolve (extractNamespaceAndPod line).1 (extractNamespaceAndPod line).2) :
    processMetricLine resolve targetLabels defaults
        (processMetricLine resolve targetLabels defaults line)
      = processMetricLine resolve targetLabels defaults line := by
  have key : ∀ X : Str,
      resolve (extractNamespaceAndPod X).1 (extractNamespaceAndPod X).2
        = resolve (extractNamespaceAndPod line).1 (extractNamespaceAndPod line).2 →
      (∀ l ∈ targetLabels,
        blockedLabel (resolve (extractNamespaceAndPod line).1
          (extractNamespaceAndPod line).2) defaults l X) →
      processMetricLine resolve targetLabels defaults X = X := by
    intro X hresX hbl
    by_cases heX : (extractNamespaceAndPod X).1 = [] ∨ (extractNamespaceAndPod X).2 = []
    · simp only [processMetricLine]; rw [if_pos heX]
    · simp only [processMetricLine]; rw [if_neg heX, hresX]
      exact foldl_of_all_blocked targetLabels X hbl
  by_cases he : (extractNamespaceAndPod line).1 = [] ∨ (extractNamespaceAndPod line).2 = []
  · have h0 : processMetricLine resolve targetLabels defaults line = line := by
      simp only [processMetricLine]; rw [if_pos he]
    rw [h0]
    exact h0
  · have hO1 : processMetricLine resolve targetLabels defaults line
        = targetLabels.foldl
            (injectStep (resolve (extractNamespaceAndPod line).1
              (extractNamespaceAndPod line).2) defaults) line := by
      simp only [processMetricLine]; rw [if_neg he]
    have hblocked : ∀ l ∈ targetLabels,
        blockedLabel (resolve (extractNamespaceAndPod line).1
            (extractNamespaceAndPod line).2) defaults l
          (processMetricLine resolve targetLabels defaults line) := by
      intro l hl
      rw [hO1]
      exact foldl_blocks_mem targetLabels line l hwf hl
    exact key (processMetricLine resolve targetLabels defaults line) hres hblocked

/-- Witness for `processMetricLine_idempotent_of_stable_resolution` with a
constant resolver on the C1 input line. -/
theorem processMetricLine_idempotent_witness :
    processMetricLine (fun _ _ => some [(lit "env", lit "dev")])
        [lit "env", lit "tier"] []
        (processMetricLine (fun _ _ => some [(lit "env", lit "dev")])
          [lit "env", lit "tier"] [] (lit "foo\x7bnamespace=\"ns\",pod=\"p\"\x7d 1"))
      = processMetricLine (fun _ _ => some [(lit "env", lit "dev")])
          [lit "env", lit "tier"] [] (lit "foo\x7bnamespace=\"ns\",pod=\"p\"\x7d 1") :=
  processMetricLine_idempotent_of_stable_resolution
    (fun _ _ => some [(lit "env", lit "dev")]) [lit "env", lit "tier"] []
    (lit "foo\x7bnamespace=\"ns\",pod=\"p\"\x7d 1") (by decide) rfl

end KCAL
